import Mathlib

/-!
Verification of the factor algebra implemented in
2-ImplementationFactor.ipynb: the factor data structure and the
operations factor_product, factor_marginalization, factor_reduction and
joint_distribution, written there over numpy arrays.

A dense numpy array is embedded as a Tensor: a shape (the extent of each
axis) together with a total value function from multi-indices to rationals.
Entry access, axis permutation (np.moveaxis), broadcasting multiplication,
summation over a set of axes (np.sum with an axis tuple) and slicing
(np.take with a scalar index) are defined below on that representation.
Errors raised by the python code are modelled by the Err type and
Except-valued operations.
-/

namespace BeliefProp

/-- Lexicographic comparison of character lists by code point, the order
numpy uses on fixed-width unicode strings. -/
def charListLe : List Char → List Char → Bool
  | [], _ => true
  | _ :: _, [] => false
  | a :: as, b :: bs =>
    if a.toNat < b.toNat then true
    else if b.toNat < a.toNat then false
    else charListLe as bs

/-- Order on variable names used by np.intersect1d when it sorts. -/
def strLe (a b : String) : Bool := charListLe a.data b.data

/-- Insert a name into a sorted list of names. -/
def insertSorted (a : String) : List String → List String
  | [] => [a]
  | b :: bs => if strLe a b then a :: b :: bs else b :: insertSorted a bs

/-- Insertion sort on variable names, modelling the sort inside
np.intersect1d. -/
def sortStr : List String → List String
  | [] => []
  | a :: as => insertSorted a (sortStr as)

/-- Model of np.intersect1d on two duplicate-free 1-d string arrays: the
sorted list of the common values. -/
def intersect1d (xs ys : List String) : List String :=
  sortStr (xs.filter (fun v => v ∈ ys))

/-- Dense tensor: the extent of each axis, and the entry at each
multi-index (a total function; only indices pointwise below the shape are
meaningful). -/
structure Tensor where
  shape : List Nat
  val : List Nat → ℚ

/-- Entry of a tensor at a multi-index. -/
def Tensor.get (t : Tensor) (idx : List Nat) : ℚ := t.val idx

/-- Model of np.moveaxis(t, range(n), dest): axis i of t becomes axis
dest[i] of the result. -/
def moveaxis (t : Tensor) (dest : List Nat) : Tensor :=
  { shape := (List.range t.shape.length).map (fun j => t.shape.getD (List.indexOf j dest) 0),
    val := fun idx => t.get (dest.map (fun d => idx.getD d 0)) }

/-- Index adjustment used by numpy broadcasting: along an axis of extent 1
the operand is indexed at 0 whatever the joint index says. -/
def bidx (shape idx : List Nat) : List Nat :=
  List.zipWith (fun c i => if c = 1 then 0 else i) shape idx

/-- Elementwise product of two same-rank tensors under numpy broadcasting
(each axis has equal extents, or extent 1 on one side). -/
def bmul (a b : Tensor) : Tensor :=
  { shape := List.zipWith max a.shape b.shape,
    val := fun idx => a.get (bidx a.shape idx) * b.get (bidx b.shape idx) }

/-- Model of indexing with k trailing None: append k singleton axes. -/
def appendOnes (t : Tensor) (k : Nat) : Tensor :=
  { shape := t.shape ++ List.replicate k 1,
    val := fun idx => t.get (idx.take t.shape.length) }

/-- Model of indexing with k leading None: prepend k singleton axes. -/
def prependOnes (k : Nat) (t : Tensor) : Tensor :=
  { shape := List.replicate k 1 ++ t.shape,
    val := fun idx => t.get (idx.drop k) }

/-- All multi-indices of a shape, in row-major order. -/
def allIdx : List Nat → List (List Nat)
  | [] => [[]]
  | c :: cs => (List.range c).flatMap (fun j => (allIdx cs).map (fun rest => j :: rest))

/-- Interleave a kept-axes index and a removed-axes index back into a full
multi-index: position i takes the next component of ridx when i is a
removed axis and the next component of idx otherwise (axes is the sorted
list of removed axis positions). -/
def mergeIdx (n : Nat) (axes idx ridx : List Nat) : List Nat :=
  (List.range n).map (fun i =>
    if i ∈ axes then ridx.getD (((List.range i).filter (fun j => j ∈ axes)).length) 0
    else idx.getD (((List.range i).filter (fun j => ¬ j ∈ axes)).length) 0)

/-- Model of np.sum(t, tuple(axes)): sum the entries over the removed axes,
keeping the surviving axes in their original order. -/
def sumAxes (t : Tensor) (axes : List Nat) : Tensor :=
  { shape := ((List.range t.shape.length).filter (fun i => ¬ i ∈ axes)).map
      (fun i => t.shape.getD i 0),
    val := fun idx =>
      ((allIdx (axes.map (fun i => t.shape.getD i 0))).map
        (fun ridx => t.get (mergeIdx t.shape.length axes idx ridx))).sum }

/-- Insert a component into a multi-index at a given axis position
(identical to List.insertIdx, restated to have definitional equations). -/
def insIdx : Nat → Nat → List Nat → List Nat
  | 0, a, l => a :: l
  | _ + 1, _, [] => []
  | n + 1, a, b :: l => b :: insIdx n a l

/-- Model of np.take(t, value, axis) for an in-range scalar value: the
slice of t fixing the given axis at the (possibly negative, counted from
the end) index, dropping that axis. -/
def npTake (t : Tensor) (value : Int) (axis : Nat) : Tensor :=
  let j : Nat := (if value < 0 then value + (t.shape.getD axis 0 : Int) else value).toNat
  { shape := t.shape.eraseIdx axis,
    val := fun idx => t.get (insIdx axis j idx) }

/-- Errors of the implementation, one constructor per distinct python
exception. The first nine model the Exception(...) raises of the source;
indexError models an uncaught python IndexError (empty sequence passed to
joint_distribution, or an np.take index below -cardinality). -/
inductive Err where
  | dataIsIncorrect
  | oneOfTheFactorsIsNone
  | noCommonVariables
  | commonVariablesDifferentCardinality
  | factorIsNone
  | doesNotContainVariables
  | inputIsNone
  | doesNotContainVariable
  | incorrectValue
  | indexError
deriving DecidableEq

/-- An explicitly raised Exception of the source corresponds to the spec
error kind InvalidArgument; a python IndexError does not. -/
def Err.isInvalidArgument : Err → Bool
  | .indexError => false
  | _ => true

/-- The factor class: an ordered list of variable names and an optional
distribution tensor. The stored shape of the python object always equals
the shape of the stored array, so it is kept derived here (Factor.shape). -/
structure Factor where
  «variables» : List String
  distribution : Option Tensor

/-- Factor.is_none of the source: no distribution tensor is stored. -/
def Factor.is_none (f : Factor) : Bool := f.distribution.isNone

/-- Stored shape of a factor: the shape of its distribution. -/
def Factor.shape (f : Factor) : List Nat :=
  match f.distribution with
  | none => []
  | some d => d.shape

/-- The factor constructor: with no distribution it builds an empty factor;
with a distribution it checks that the number of variables equals the rank
of the array and raises otherwise. -/
def mkFactor («variables» : List String) (distribution : Option Tensor) : Except Err Factor :=
  match distribution with
  | none => Except.ok { «variables» := «variables», distribution := none }
  | some d =>
    if «variables».length = d.shape.length
    then Except.ok { «variables» := «variables», distribution := some d }
    else Except.error Err.dataIsIncorrect

/-- Destination axis of each axis of x under the moveaxis of
factor_product: a non-shared axis goes to the position counting the
non-shared axes before it, the axis of a shared variable v goes right of
all non-shared axes, offset by the position of v in the sorted
intersection (the assignments x_ind[x_mask] = arange(sum(x_mask)) and
x_ind[xy_in_x_ind] = arange(len(xy)) + sum(x_mask) of the source). -/
def destX (xv xy : List String) : List Nat :=
  (List.range xv.length).map (fun i =>
    if xv.getD i "" ∈ xy then
      (xv.filter (fun w => ¬ w ∈ xy)).length + List.indexOf (xv.getD i "") xy
    else ((xv.take i).filter (fun w => ¬ w ∈ xy)).length)

/-- Destination axis of each axis of y under the moveaxis of
factor_product: the axis of a shared variable v goes to the position of v
in the sorted intersection, a non-shared axis goes right of all shared
axes (y_ind[y_mask] = arange(sum(y_mask)) + sum(invert(y_mask)) and
y_ind[xy_in_y_ind] = arange(len(xy)) of the source). -/
def destY (yv xy : List String) : List Nat :=
  (List.range yv.length).map (fun i =>
    if yv.getD i "" ∈ xy then List.indexOf (yv.getD i "") xy
    else (yv.filter (fun w => w ∈ xy)).length + ((yv.take i).filter (fun w => ¬ w ∈ xy)).length)

/-- factor_product of the source: align the two factors on their sorted
common variables, check the shared cardinalities, reorder both arrays by
moveaxis, extend with singleton axes and multiply with broadcasting. -/
def factor_product (x y : Factor) : Except Err Factor :=
  match x.distribution, y.distribution with
  | some dx, some dy =>
    let xv := x.«variables»
    let yv := y.«variables»
    let xy := intersect1d xv yv
    if xy.length = 0 then Except.error Err.noCommonVariables
    else if ¬ (xy.map (fun v => dx.shape.getD (List.indexOf v xv) 0)
             = xy.map (fun v => dy.shape.getD (List.indexOf v yv) 0))
    then Except.error Err.commonVariablesDifferentCardinality
    else
      let x_not_in_y := xv.filter (fun v => ¬ v ∈ yv)
      let y_not_in_x := yv.filter (fun v => ¬ v ∈ xv)
      let x_dist := moveaxis dx (destX xv xy)
      let y_dist := moveaxis dy (destY yv xy)
      let res := bmul (appendOnes x_dist y_not_in_x.length)
                      (prependOnes x_not_in_y.length y_dist)
      mkFactor (x_not_in_y ++ xy ++ y_not_in_x) (some res)
  | _, _ => Except.error Err.oneOfTheFactorsIsNone

/-- factor_marginalization of the source: checks, then sums the
distribution over the axes whose variables are being removed. -/
def factor_marginalization (x : Factor) («variables» : List String) : Except Err Factor :=
  match x.distribution with
  | none => Except.error Err.factorIsNone
  | some d =>
    if ¬ («variables».all (fun v => v ∈ x.«variables»)) then Except.error Err.doesNotContainVariables
    else
      let res_variables := x.«variables».filter (fun v => ¬ v ∈ «variables»)
      let axes := (List.range x.«variables».length).filter
        (fun i => x.«variables».getD i "" ∈ «variables»)
      mkFactor res_variables (some (sumAxes d axes))

/-- factor_reduction of the source: checks membership of the variable and
that the value is below the cardinality (negative values pass this check),
then slices by np.take along the axis of the variable. The value below
negative cardinality case is the bounds error np.take itself raises. -/
def factor_reduction (x : Factor) («variable» : String) (value : Int) : Except Err Factor :=
  match x.distribution with
  | none => Except.error Err.inputIsNone
  | some d =>
    if ¬ («variable» ∈ x.«variables») then Except.error Err.doesNotContainVariable
    else
      let axis := List.indexOf «variable» x.«variables»
      if value ≥ (d.shape.getD axis 0 : Int) then Except.error Err.incorrectValue
      else if value < -(d.shape.getD axis 0 : Int) then Except.error Err.indexError
      else
        let res_variables := x.«variables».filter (fun w => ¬ w = «variable»)
        mkFactor res_variables (some (npTake d value axis))

/-- joint_distribution of the source: reject any empty factor, then left
fold factor_product over the sequence starting from its head; an empty
sequence hits the ar[0] subscript and raises IndexError. -/
def joint_distribution (ar : List Factor) : Except Err Factor :=
  if ar.any Factor.is_none then Except.error Err.factorIsNone
  else
    match ar with
    | [] => Except.error Err.indexError
    | f :: rest => rest.foldlM factor_product f

/-! Auxiliary facts about list indexing, filtering and positions. -/

/-- An in-range getD is a member. -/
theorem getD_mem {α : Type} {l : List α} {i : Nat} (d : α) (h : i < l.length) :
    l.getD i d ∈ l := by
  rw [List.getD_eq_getElem l d h]
  exact List.getElem_mem h

/-- Reading back at the index of a member gives the member. -/
theorem getD_indexOf {α : Type} [DecidableEq α] {l : List α} {v : α} (d : α) (h : v ∈ l) :
    l.getD (List.indexOf v l) d = v := by
  have hlt : List.indexOf v l < l.length := List.indexOf_lt_length.mpr h
  rw [List.getD_eq_getElem l d hlt]
  exact List.getElem_indexOf hlt

/-- In a duplicate-free list the index of the i-th element is i. -/
theorem indexOf_getD {α : Type} [DecidableEq α] {l : List α} (hnd : l.Nodup) {i : Nat}
    (d : α) (h : i < l.length) : List.indexOf (l.getD i d) l = i := by
  rw [List.getD_eq_getElem l d h]
  exact List.indexOf_getElem hnd i h

/-- getD on List.range. -/
theorem getD_range {n i : Nat} (d : Nat) (h : i < n) : (List.range n).getD i d = i := by
  rw [List.getD_eq_getElem _ d (by simpa using h)]
  exact List.getElem_range _ _

/-- getD through map at an in-range index. -/
theorem getD_map_lt {α β : Type} (f : α → β) {l : List α} {i : Nat} (d : α) (d2 : β)
    (h : i < l.length) : (l.map f).getD i d2 = f (l.getD i d) := by
  rw [List.getD_eq_getElem (l.map f) d2 (by simpa using h), List.getD_eq_getElem l d h,
    List.getElem_map]

/-- The i-th element of a list, when the predicate holds of it, is found in
the filtered list at the position counting earlier matches. -/
theorem filter_getD_cnt {α : Type} (p : α → Bool) (l : List α) :
    ∀ (i : Nat) (d : α), i < l.length → p (l.getD i d) = true →
      (l.filter p).getD (((l.take i).filter p).length) d = l.getD i d := by
  induction l with
  | nil => intro i d h _; simp at h
  | cons a t ih =>
    intro i d h hp
    cases i with
    | zero =>
      simp only [List.getD_cons_zero] at hp ⊢
      simp [List.filter_cons, hp]
    | succ i =>
      simp only [List.getD_cons_succ] at hp ⊢
      have h' : i < t.length := by simpa using h
      by_cases hpa : p a
      · rw [List.take_succ_cons, List.filter_cons, List.filter_cons, if_pos hpa, if_pos hpa,
          List.length_cons, List.getD_cons_succ]
        exact ih i d h' hp
      · rw [List.take_succ_cons, List.filter_cons, List.filter_cons, if_neg hpa, if_neg hpa]
        exact ih i d h' hp

/-- The count of earlier matches is below the total number of matches. -/
theorem cnt_lt_filter_length {α : Type} (p : α → Bool) (l : List α) :
    ∀ (i : Nat) (d : α), i < l.length → p (l.getD i d) = true →
      ((l.take i).filter p).length < (l.filter p).length := by
  induction l with
  | nil => intro i d h _; simp at h
  | cons a t ih =>
    intro i d h hp
    cases i with
    | zero =>
      simp only [List.getD_cons_zero] at hp
      simp [List.filter_cons, hp]
    | succ i =>
      simp only [List.getD_cons_succ] at hp
      have h' : i < t.length := by simpa using h
      by_cases hpa : p a
      · simpa [List.take_succ_cons, List.filter_cons, hpa] using ih i d h' hp
      · simpa [List.take_succ_cons, List.filter_cons, hpa] using ih i d h' hp

/-- In a duplicate-free list, the position of the i-th element inside the
filtered list is the count of earlier matches. -/
theorem filter_indexOf_cnt {α : Type} [DecidableEq α] (p : α → Bool) (l : List α) :
    ∀ (i : Nat) (d : α), l.Nodup → i < l.length → p (l.getD i d) = true →
      List.indexOf (l.getD i d) (l.filter p) = ((l.take i).filter p).length := by
  induction l with
  | nil => intro i d _ h _; simp at h
  | cons a t ih =>
    intro i d hnd h hp
    have hat : a ∉ t ∧ t.Nodup := List.nodup_cons.mp hnd
    cases i with
    | zero =>
      simp only [List.getD_cons_zero] at hp ⊢
      simp [List.filter_cons, hp]
    | succ i =>
      simp only [List.getD_cons_succ] at hp ⊢
      have h' : i < t.length := by simpa using h
      have hvt : t.getD i d ∈ t := getD_mem d h'
      have hne : t.getD i d ≠ a := fun he => hat.1 (he ▸ hvt)
      by_cases hpa : p a
      · rw [List.take_succ_cons, List.filter_cons, List.filter_cons, if_pos hpa, if_pos hpa,
          List.indexOf_cons_ne _ (Ne.symm hne), ih i d hat.2 h' hp, List.length_cons]
      · rw [List.take_succ_cons, List.filter_cons, List.filter_cons, if_neg hpa, if_neg hpa]
        exact ih i d hat.2 h' hp

/-- Matches and non-matches partition the length. -/
theorem length_filter_partition {α : Type} (p : α → Bool) (l : List α) :
    (l.filter p).length + (l.filter (fun a => ¬ p a)).length = l.length := by
  induction l with
  | nil => rfl
  | cons a t ih =>
    by_cases h : p a <;> simp [List.filter_cons, h, ← ih] <;> omega

/-- Counting matches among the first i positions equals counting matches in
the first i elements. -/
theorem cnt_range_eq {α : Type} (p : α → Bool) (l : List α) (d : α) :
    ∀ i, i ≤ l.length →
      ((List.range i).filter (fun k => p (l.getD k d))).length =
        ((l.take i).filter p).length := by
  intro i
  induction i with
  | zero => intro _; simp
  | succ i ih =>
    intro h
    have h' : i < l.length := h
    rw [List.range_succ, List.filter_append, List.take_succ, List.filter_append]
    rw [List.getElem?_eq_getElem h', ← List.getD_eq_getElem l d h']
    simp only [List.length_append, ih (Nat.le_of_lt h')]
    simp only [List.filter_cons, List.filter_nil]
    by_cases hp : p (l[i]?.getD d) = true <;> simp [hp]

/-- indexOf looks only at the left part when the element occurs there. -/
theorem indexOf_append_left {α : Type} [DecidableEq α] {l1 : List α} (l2 : List α)
    {v : α} (h : v ∈ l1) : List.indexOf v (l1 ++ l2) = List.indexOf v l1 := by
  induction l1 with
  | nil => simp at h
  | cons a t ih =>
    by_cases hva : a = v
    · subst hva; simp [List.indexOf_cons_self]
    · have hvt : v ∈ t := by
        rcases List.mem_cons.mp h with h1 | h1
        · exact absurd h1.symm hva
        · exact h1
      rw [List.cons_append, List.indexOf_cons_ne _ hva, List.indexOf_cons_ne _ hva, ih hvt]

/-! Facts about the sorted intersection. -/

/-- Inserting into a sorted list is a permutation of consing. -/
theorem insertSorted_perm (a : String) : ∀ l : List String, (insertSorted a l).Perm (a :: l)
  | [] => List.Perm.refl _
  | b :: bs => by
    unfold insertSorted
    by_cases h : strLe a b
    · rw [if_pos h]
    · rw [if_neg h]
      exact ((insertSorted_perm a bs).cons b).trans (List.Perm.swap a b bs)

/-- Sorting permutes. -/
theorem sortStr_perm : ∀ l : List String, (sortStr l).Perm l
  | [] => List.Perm.refl []
  | a :: as => (insertSorted_perm a (sortStr as)).trans ((sortStr_perm as).cons a)

/-- Membership in the intersection is joint membership. -/
theorem mem_intersect1d {xs ys : List String} {v : String} :
    v ∈ intersect1d xs ys ↔ (v ∈ xs ∧ v ∈ ys) := by
  unfold intersect1d
  rw [(sortStr_perm _).mem_iff]
  simp [List.mem_filter]

/-- The intersection of a duplicate-free list with anything is
duplicate-free. -/
theorem nodup_intersect1d {xs ys : List String} (h : xs.Nodup) :
    (intersect1d xs ys).Nodup :=
  (List.Nodup.filter _ h).perm (sortStr_perm _).symm

/-- Filtering the left list down to the shared variables keeps exactly as
many elements as the intersection has. -/
theorem length_filter_mem_intersect1d (xv yv : List String) :
    (xv.filter (fun v => v ∈ intersect1d xv yv)).length = (intersect1d xv yv).length := by
  have he : xv.filter (fun v => v ∈ intersect1d xv yv) = xv.filter (fun v => v ∈ yv) := by
    apply List.filter_congr
    intro v hv
    simp [mem_intersect1d, hv]
  rw [he]
  exact ((sortStr_perm (xv.filter (fun v => v ∈ yv))).length_eq).symm

/-! Facts about broadcasting indices and axis moving. -/

/-- Broadcasting adjustment is the identity on an index that is valid for
the shape (every component under an extent-1 axis is already 0). -/
theorem bidx_eq_self : ∀ (s idx : List Nat), s.length = idx.length →
    (∀ k, k < s.length → s.getD k 0 = 1 → idx.getD k 0 = 0) → bidx s idx = idx
  | [], [], _, _ => rfl
  | [], _ :: _, h, _ => by simp at h
  | _ :: _, [], h, _ => by simp at h
  | a :: s, b :: idx, h, hk => by
    unfold bidx
    simp only [List.zipWith_cons_cons]
    have hb : (if a = 1 then 0 else b) = b := by
      by_cases ha : a = 1
      · rw [if_pos ha]
        exact (hk 0 (by simp) (by simpa using ha)).symm
      · rw [if_neg ha]
    rw [hb]
    congr 1
    exact bidx_eq_self s idx (by simpa using h)
      (fun k hk1 h1 => hk (k + 1) (by simpa using hk1) (by simpa using h1))

/-- Shape of a moved-axes tensor, given an explicit two-sided inverse of
the destination assignment. -/
theorem moveaxis_shape {t : Tensor} {dest src : List Nat}
    (hd : dest.length = t.shape.length)
    (hs : src.length = t.shape.length)
    (hds : ∀ i, i < t.shape.length →
      dest.getD i 0 < t.shape.length ∧ src.getD (dest.getD i 0) 0 = i)
    (hsd : ∀ j, j < t.shape.length →
      src.getD j 0 < t.shape.length ∧ dest.getD (src.getD j 0) 0 = j) :
    (moveaxis t dest).shape = src.map (fun j => t.shape.getD j 0) := by
  unfold moveaxis
  apply List.ext_getElem
  · simp [hs]
  · intro j h1 h2
    have hj : j < t.shape.length := by simpa using h1
    obtain ⟨hsrc_lt, hdsj⟩ := hsd j hj
    have hmem : j ∈ dest := by
      have hm : dest.getD (src.getD j 0) 0 ∈ dest := getD_mem 0 (by rw [hd]; exact hsrc_lt)
      rwa [hdsj] at hm
    have hio : List.indexOf j dest < dest.length := List.indexOf_lt_length.mpr hmem
    have hgio : dest.getD (List.indexOf j dest) 0 = j := getD_indexOf 0 hmem
    have hix := (hds (List.indexOf j dest) (by rw [← hd]; exact hio)).2
    rw [hgio] at hix
    rw [List.getElem_map, List.getElem_map, List.getElem_range, ← hix,
      ← List.getD_eq_getElem src 0 (by simpa using h2)]

/-- Entries of a moved-axes tensor. -/
theorem moveaxis_get (t : Tensor) (dest : List Nat) (idx : List Nat) :
    (moveaxis t dest).get idx = t.get (dest.map (fun d => idx.getD d 0)) := rfl

/-! The destination assignments of factor_product are permutations; srcX
and srcY are their explicit inverses (proof scaffolding, not part of the
embedded program): position j of the canonical layout comes from the axis
of the j-th canonical variable in the operand. -/

/-- Two duplicate-free lists with the same members have the same length. -/
theorem length_eq_of_nodup_mem_iff {α : Type} [DecidableEq α] {l1 l2 : List α}
    (h1 : l1.Nodup) (h2 : l2.Nodup) (hm : ∀ v, v ∈ l1 ↔ v ∈ l2) :
    l1.length = l2.length :=
  Nat.le_antisymm
    (List.Subperm.length_le (List.subperm_of_subset h1 (fun v hv => (hm v).mp hv)))
    (List.Subperm.length_le (List.subperm_of_subset h2 (fun v hv => (hm v).mpr hv)))

/-- Filtering the right list down to the shared variables also keeps
exactly as many elements as the intersection has. -/
theorem length_filter_mem_intersect1d_right (xv yv : List String)
    (hndx : xv.Nodup) (hndy : yv.Nodup) :
    (yv.filter (fun w => w ∈ intersect1d xv yv)).length = (intersect1d xv yv).length := by
  apply length_eq_of_nodup_mem_iff (List.Nodup.filter _ hndy) (nodup_intersect1d hndx)
  intro v
  simp only [List.mem_filter, mem_intersect1d, decide_eq_true_eq]
  tauto

/-- Pointwise description of destX. -/
theorem destX_getD (xv xy : List String) {i : Nat} (h : i < xv.length) :
    (destX xv xy).getD i 0 =
      if xv.getD i "" ∈ xy then
        (xv.filter (fun w => ¬ w ∈ xy)).length + List.indexOf (xv.getD i "") xy
      else ((xv.take i).filter (fun w => ¬ w ∈ xy)).length := by
  unfold destX
  rw [getD_map_lt _ 0 0 (by simpa using h), getD_range 0 h]

/-- Pointwise description of destY. -/
theorem destY_getD (yv xy : List String) {i : Nat} (h : i < yv.length) :
    (destY yv xy).getD i 0 =
      if yv.getD i "" ∈ xy then List.indexOf (yv.getD i "") xy
      else (yv.filter (fun w => w ∈ xy)).length +
        ((yv.take i).filter (fun w => ¬ w ∈ xy)).length := by
  unfold destY
  rw [getD_map_lt _ 0 0 (by simpa using h), getD_range 0 h]

/-- Source axis in x of each canonical axis of the product layout. -/
def srcX (xv xy : List String) : List Nat :=
  ((xv.filter (fun w => ¬ w ∈ xy)) ++ xy).map (fun v => List.indexOf v xv)

/-- Source axis in y of each canonical axis of the y layout. -/
def srcY (yv xy : List String) : List Nat :=
  (xy ++ (yv.filter (fun w => ¬ w ∈ xy))).map (fun v => List.indexOf v yv)

theorem destX_length (xv xy : List String) : (destX xv xy).length = xv.length := by
  simp [destX]

theorem destY_length (yv xy : List String) : (destY yv xy).length = yv.length := by
  simp [destY]

/-- A list splits into the elements inside and outside a reference list. -/
theorem length_filter_mem_partition (l xy : List String) :
    (l.filter (fun w => w ∈ xy)).length + (l.filter (fun w => ¬ w ∈ xy)).length = l.length := by
  induction l with
  | nil => rfl
  | cons a t ih =>
    by_cases h : a ∈ xy <;> simp [List.filter_cons, h, ← ih] <;> omega

theorem srcX_length (xv xy : List String)
    (hlen : (xv.filter (fun w => w ∈ xy)).length = xy.length) :
    (srcX xv xy).length = xv.length := by
  have hp := length_filter_mem_partition xv xy
  simp only [srcX, List.length_map, List.length_append]
  omega

theorem srcY_length (yv xy : List String)
    (hlen : (yv.filter (fun w => w ∈ xy)).length = xy.length) :
    (srcY yv xy).length = yv.length := by
  have hp := length_filter_mem_partition yv xy
  simp only [srcY, List.length_map, List.length_append]
  omega

theorem srcX_getD_left (xv xy : List String) {j : Nat}
    (h : j < (xv.filter (fun w => ¬ w ∈ xy)).length) :
    (srcX xv xy).getD j 0 =
      List.indexOf ((xv.filter (fun w => ¬ w ∈ xy)).getD j "") xv := by
  unfold srcX
  rw [getD_map_lt _ "" 0 (by simp only [List.length_append]; omega),
    List.getD_append _ _ _ _ h]

theorem srcX_getD_right (xv xy : List String) {j : Nat}
    (hj : (xv.filter (fun w => ¬ w ∈ xy)).length ≤ j)
    (hk : j - (xv.filter (fun w => ¬ w ∈ xy)).length < xy.length) :
    (srcX xv xy).getD j 0 =
      List.indexOf (xy.getD (j - (xv.filter (fun w => ¬ w ∈ xy)).length) "") xv := by
  unfold srcX
  rw [getD_map_lt _ "" 0 (by simp only [List.length_append]; omega),
    List.getD_append_right _ _ _ _ hj]

theorem srcY_getD_left (yv xy : List String) {j : Nat} (h : j < xy.length) :
    (srcY yv xy).getD j 0 = List.indexOf (xy.getD j "") yv := by
  unfold srcY
  rw [getD_map_lt _ "" 0 (by simp only [List.length_append]; omega),
    List.getD_append _ _ _ _ h]

theorem srcY_getD_right (yv xy : List String) {j : Nat} (hj : xy.length ≤ j)
    (hk : j - xy.length < (yv.filter (fun w => ¬ w ∈ xy)).length) :
    (srcY yv xy).getD j 0 =
      List.indexOf ((yv.filter (fun w => ¬ w ∈ xy)).getD (j - xy.length) "") yv := by
  unfold srcY
  rw [getD_map_lt _ "" 0 (by simp only [List.length_append]; omega),
    List.getD_append_right _ _ _ _ hj]

/-- destX sends every axis of x into the canonical range, and srcX undoes
it. -/
theorem destX_bij (xv xy : List String) (hnd : xv.Nodup)
    (hlen : (xv.filter (fun w => w ∈ xy)).length = xy.length) :
    ∀ i, i < xv.length → (destX xv xy).getD i 0 < xv.length ∧
      (srcX xv xy).getD ((destX xv xy).getD i 0) 0 = i := by
  intro i hi
  have hpart := length_filter_mem_partition xv xy
  rw [destX_getD xv xy hi]
  by_cases hm : xv.getD i "" ∈ xy
  · rw [if_pos hm]
    have hidx : List.indexOf (xv.getD i "") xy < xy.length := List.indexOf_lt_length.mpr hm
    refine ⟨by omega, ?_⟩
    rw [srcX_getD_right xv xy (Nat.le_add_right _ _)
      (by rw [Nat.add_sub_cancel_left]; exact hidx), Nat.add_sub_cancel_left,
      getD_indexOf "" hm]
    exact indexOf_getD hnd "" hi
  · rw [if_neg hm]
    have hcnt := cnt_lt_filter_length (fun w => ¬ w ∈ xy) xv i "" hi (by simpa using hm)
    refine ⟨lt_of_lt_of_le hcnt (List.length_filter_le _ xv), ?_⟩
    rw [srcX_getD_left xv xy hcnt,
      filter_getD_cnt (fun w => ¬ w ∈ xy) xv i "" hi (by simpa using hm)]
    exact indexOf_getD hnd "" hi

/-- srcX sends every canonical axis back into x, and destX undoes it. -/
theorem srcX_bij (xv xy : List String) (hnd : xv.Nodup) (hxynd : xy.Nodup)
    (hsub : ∀ v ∈ xy, v ∈ xv)
    (hlen : (xv.filter (fun w => w ∈ xy)).length = xy.length) :
    ∀ j, j < xv.length → (srcX xv xy).getD j 0 < xv.length ∧
      (destX xv xy).getD ((srcX xv xy).getD j 0) 0 = j := by
  intro j hj
  have hpart := length_filter_mem_partition xv xy
  by_cases hjl : j < (xv.filter (fun w => ¬ w ∈ xy)).length
  · rw [srcX_getD_left xv xy hjl]
    have hwmem : (xv.filter (fun w => ¬ w ∈ xy)).getD j "" ∈
        xv.filter (fun w => ¬ w ∈ xy) := getD_mem "" hjl
    have hwx : (xv.filter (fun w => ¬ w ∈ xy)).getD j "" ∈ xv :=
      (List.mem_filter.mp hwmem).1
    have hwny : ¬ ((xv.filter (fun w => ¬ w ∈ xy)).getD j "" ∈ xy) := by
      have h2 := (List.mem_filter.mp hwmem).2
      simpa using h2
    have hi0 : List.indexOf ((xv.filter (fun w => ¬ w ∈ xy)).getD j "") xv < xv.length :=
      List.indexOf_lt_length.mpr hwx
    refine ⟨hi0, ?_⟩
    rw [destX_getD xv xy hi0, getD_indexOf "" hwx, if_neg hwny]
    have h1 := filter_indexOf_cnt (fun w => ¬ w ∈ xy) xv
      (List.indexOf ((xv.filter (fun w => ¬ w ∈ xy)).getD j "") xv) "" hnd hi0
      (by rw [getD_indexOf "" hwx]; simpa using hwny)
    rw [getD_indexOf "" hwx] at h1
    rw [← h1]
    exact indexOf_getD (List.Nodup.filter _ hnd) "" hjl
  · have hk : j - (xv.filter (fun w => ¬ w ∈ xy)).length < xy.length := by omega
    rw [srcX_getD_right xv xy (Nat.le_of_not_lt hjl) hk]
    have hwy : xy.getD (j - (xv.filter (fun w => ¬ w ∈ xy)).length) "" ∈ xy :=
      getD_mem "" hk
    have hwx := hsub _ hwy
    have hi0 : List.indexOf (xy.getD (j - (xv.filter (fun w => ¬ w ∈ xy)).length) "") xv
        < xv.length := List.indexOf_lt_length.mpr hwx
    refine ⟨hi0, ?_⟩
    rw [destX_getD xv xy hi0, getD_indexOf "" hwx, if_pos hwy,
      indexOf_getD hxynd "" hk]
    omega

/-- destY sends every axis of y into the canonical range, and srcY undoes
it. -/
theorem destY_bij (yv xy : List String) (hndy : yv.Nodup)
    (hleny : (yv.filter (fun w => w ∈ xy)).length = xy.length) :
    ∀ i, i < yv.length → (destY yv xy).getD i 0 < yv.length ∧
      (srcY yv xy).getD ((destY yv xy).getD i 0) 0 = i := by
  intro i hi
  have hpart := length_filter_mem_partition yv xy
  rw [destY_getD yv xy hi]
  by_cases hm : yv.getD i "" ∈ xy
  · rw [if_pos hm]
    have hidx : List.indexOf (yv.getD i "") xy < xy.length := List.indexOf_lt_length.mpr hm
    refine ⟨by omega, ?_⟩
    rw [srcY_getD_left yv xy hidx, getD_indexOf "" hm]
    exact indexOf_getD hndy "" hi
  · rw [if_neg hm]
    have hcnt := cnt_lt_filter_length (fun w => ¬ w ∈ xy) yv i "" hi (by simpa using hm)
    refine ⟨by omega, ?_⟩
    rw [hleny, srcY_getD_right yv xy (Nat.le_add_right _ _)
      (by rw [Nat.add_sub_cancel_left]; exact hcnt), Nat.add_sub_cancel_left,
      filter_getD_cnt (fun w => ¬ w ∈ xy) yv i "" hi (by simpa using hm)]
    exact indexOf_getD hndy "" hi

/-- srcY sends every canonical axis back into y, and destY undoes it. -/
theorem srcY_bij (yv xy : List String) (hndy : yv.Nodup) (hxynd : xy.Nodup)
    (hsub : ∀ v ∈ xy, v ∈ yv)
    (hleny : (yv.filter (fun w => w ∈ xy)).length = xy.length) :
    ∀ j, j < yv.length → (srcY yv xy).getD j 0 < yv.length ∧
      (destY yv xy).getD ((srcY yv xy).getD j 0) 0 = j := by
  intro j hj
  have hpart := length_filter_mem_partition yv xy
  by_cases hjl : j < xy.length
  · rw [srcY_getD_left yv xy hjl]
    have hwy : xy.getD j "" ∈ xy := getD_mem "" hjl
    have hwv := hsub _ hwy
    have hi0 : List.indexOf (xy.getD j "") yv < yv.length := List.indexOf_lt_length.mpr hwv
    refine ⟨hi0, ?_⟩
    rw [destY_getD yv xy hi0, getD_indexOf "" hwv, if_pos hwy,
      indexOf_getD hxynd "" hjl]
  · have hk : j - xy.length < (yv.filter (fun w => ¬ w ∈ xy)).length := by omega
    rw [srcY_getD_right yv xy (Nat.le_of_not_lt hjl) hk]
    have hwmem : (yv.filter (fun w => ¬ w ∈ xy)).getD (j - xy.length) "" ∈
        yv.filter (fun w => ¬ w ∈ xy) := getD_mem "" hk
    have hwv : (yv.filter (fun w => ¬ w ∈ xy)).getD (j - xy.length) "" ∈ yv :=
      (List.mem_filter.mp hwmem).1
    have hwny : ¬ ((yv.filter (fun w => ¬ w ∈ xy)).getD (j - xy.length) "" ∈ xy) := by
      have h2 := (List.mem_filter.mp hwmem).2
      simpa using h2
    have hi0 : List.indexOf ((yv.filter (fun w => ¬ w ∈ xy)).getD (j - xy.length) "") yv
        < yv.length := List.indexOf_lt_length.mpr hwv
    refine ⟨hi0, ?_⟩
    rw [destY_getD yv xy hi0, getD_indexOf "" hwv, if_neg hwny, hleny]
    have h1 := filter_indexOf_cnt (fun w => ¬ w ∈ xy) yv
      (List.indexOf ((yv.filter (fun w => ¬ w ∈ xy)).getD (j - xy.length) "") yv) "" hndy hi0
      (by rw [getD_indexOf "" hwv]; simpa using hwny)
    rw [getD_indexOf "" hwv] at h1
    rw [← h1, indexOf_getD (List.Nodup.filter _ hndy) "" hk]
    omega

/-! Reading the canonical value layout through the destination axes gives
back each operand indexed in its own variable order. -/

/-- The canonical value list read at the destination of axis i of x is the
assignment of the i-th variable of x. -/
theorem destX_map_getD (xv xy : List String) (A : String → Nat) :
    ∀ i, i < xv.length →
      ((xv.filter (fun w => ¬ w ∈ xy)).map A ++ xy.map A).getD ((destX xv xy).getD i 0) 0
        = A (xv.getD i "") := by
  intro i hi
  rw [destX_getD xv xy hi]
  by_cases hm : xv.getD i "" ∈ xy
  · rw [if_pos hm]
    have hidx : List.indexOf (xv.getD i "") xy < xy.length := List.indexOf_lt_length.mpr hm
    rw [List.getD_append_right _ _ _ _ (by simp only [List.length_map]; omega)]
    simp only [List.length_map, Nat.add_sub_cancel_left]
    rw [getD_map_lt A "" 0 hidx, getD_indexOf "" hm]
  · rw [if_neg hm]
    have hcnt := cnt_lt_filter_length (fun w => ¬ w ∈ xy) xv i "" hi (by simpa using hm)
    rw [List.getD_append _ _ _ _ (by simpa using hcnt), getD_map_lt A "" 0 hcnt,
      filter_getD_cnt (fun w => ¬ w ∈ xy) xv i "" hi (by simpa using hm)]

/-- The y-side value list read at the destination of axis i of y is the
assignment of the i-th variable of y. -/
theorem destY_map_getD (yv xy : List String) (A : String → Nat)
    (hleny : (yv.filter (fun w => w ∈ xy)).length = xy.length) :
    ∀ i, i < yv.length →
      (xy.map A ++ (yv.filter (fun w => ¬ w ∈ xy)).map A).getD ((destY yv xy).getD i 0) 0
        = A (yv.getD i "") := by
  intro i hi
  rw [destY_getD yv xy hi]
  by_cases hm : yv.getD i "" ∈ xy
  · rw [if_pos hm]
    have hidx : List.indexOf (yv.getD i "") xy < xy.length := List.indexOf_lt_length.mpr hm
    rw [List.getD_append _ _ _ _ (by simpa using hidx), getD_map_lt A "" 0 hidx,
      getD_indexOf "" hm]
  · rw [if_neg hm, hleny]
    have hcnt := cnt_lt_filter_length (fun w => ¬ w ∈ xy) yv i "" hi (by simpa using hm)
    rw [List.getD_append_right _ _ _ _ (by simp only [List.length_map]; omega)]
    simp only [List.length_map, Nat.add_sub_cancel_left]
    rw [getD_map_lt A "" 0 hcnt,
      filter_getD_cnt (fun w => ¬ w ∈ xy) yv i "" hi (by simpa using hm)]

/-- Mapping the canonical read over destX reproduces x indexed by its own
variable order. -/
theorem destX_map_values (xv xy : List String) (A : String → Nat) :
    (destX xv xy).map (fun dd =>
      ((xv.filter (fun w => ¬ w ∈ xy)).map A ++ xy.map A).getD dd 0) = xv.map A := by
  apply List.ext_getElem
  · simp [destX]
  · intro i h1 h2
    have hi : i < xv.length := by simpa [destX] using h1
    rw [List.getElem_map, List.getElem_map,
      ← List.getD_eq_getElem (destX xv xy) 0 (by rw [destX_length]; exact hi),
      ← List.getD_eq_getElem xv "" hi]
    exact destX_map_getD xv xy A i hi

/-- Mapping the y-side read over destY reproduces y indexed by its own
variable order. -/
theorem destY_map_values (yv xy : List String) (A : String → Nat)
    (hleny : (yv.filter (fun w => w ∈ xy)).length = xy.length) :
    (destY yv xy).map (fun dd =>
      (xy.map A ++ (yv.filter (fun w => ¬ w ∈ xy)).map A).getD dd 0) = yv.map A := by
  apply List.ext_getElem
  · simp [destY]
  · intro i h1 h2
    have hi : i < yv.length := by simpa [destY] using h1
    rw [List.getElem_map, List.getElem_map,
      ← List.getD_eq_getElem (destY yv xy) 0 (by rw [destY_length]; exact hi),
      ← List.getD_eq_getElem yv "" hi]
    exact destY_map_getD yv xy A hleny i hi

/-- The non-shared variables of x relative to y are exactly those outside
the intersection. -/
theorem filter_not_mem_intersect_left (xv yv : List String) :
    xv.filter (fun v => ¬ v ∈ yv) = xv.filter (fun w => ¬ w ∈ intersect1d xv yv) := by
  apply List.filter_congr
  intro v hv
  simp [mem_intersect1d, hv]

/-- The non-shared variables of y relative to x are exactly those outside
the intersection. -/
theorem filter_not_mem_intersect_right (xv yv : List String) :
    yv.filter (fun v => ¬ v ∈ xv) = yv.filter (fun w => ¬ w ∈ intersect1d xv yv) := by
  apply List.filter_congr
  intro v hv
  simp [mem_intersect1d, hv]

/-! Core correctness of factor_product. -/

/-- On two well-formed factors with some shared variable and matching
shared cardinalities, factor_product succeeds and returns exactly the
broadcast-multiplied tensor over the canonical variable order. -/
theorem factor_product_eq_ok (x y : Factor) (dx dy : Tensor)
    (hx : x.distribution = some dx) (hy : y.distribution = some dy)
    (hndx : x.«variables».Nodup) (hndy : y.«variables».Nodup)
    (hrx : dx.shape.length = x.«variables».length)
    (hry : dy.shape.length = y.«variables».length)
    (hne : intersect1d x.«variables» y.«variables» ≠ [])
    (hcard : ∀ v ∈ intersect1d x.«variables» y.«variables»,
      dx.shape.getD (List.indexOf v x.«variables») 0
        = dy.shape.getD (List.indexOf v y.«variables») 0) :
    factor_product x y = Except.ok
      { «variables» := x.«variables».filter (fun v => ¬ v ∈ y.«variables»)
          ++ intersect1d x.«variables» y.«variables»
          ++ y.«variables».filter (fun v => ¬ v ∈ x.«variables»),
        distribution := some (bmul
          (appendOnes
            (moveaxis dx (destX x.«variables» (intersect1d x.«variables» y.«variables»)))
            (y.«variables».filter (fun v => ¬ v ∈ x.«variables»)).length)
          (prependOnes (x.«variables».filter (fun v => ¬ v ∈ y.«variables»)).length
            (moveaxis dy (destY y.«variables» (intersect1d x.«variables» y.«variables»))))) }
    := by
  obtain ⟨xvars, xdist⟩ := x
  obtain ⟨yvars, ydist⟩ := y
  dsimp only at hx hy hndx hndy hrx hry hne hcard ⊢
  subst hx
  subst hy
  have h1 : ¬ ((intersect1d xvars yvars).length = 0) := fun h => hne (List.length_eq_zero.mp h)
  have h2 : (intersect1d xvars yvars).map
        (fun v => dx.shape.getD (List.indexOf v xvars) 0)
      = (intersect1d xvars yvars).map
        (fun v => dy.shape.getD (List.indexOf v yvars) 0) :=
    List.map_congr_left hcard
  have hlx := length_filter_mem_intersect1d xvars yvars
  have hly := length_filter_mem_intersect1d_right xvars yvars hndx hndy
  have hpx := length_filter_mem_partition xvars (intersect1d xvars yvars)
  have hpy := length_filter_mem_partition yvars (intersect1d xvars yvars)
  have hfx := filter_not_mem_intersect_left xvars yvars
  have hfy := filter_not_mem_intersect_right xvars yvars
  simp only [factor_product, mkFactor]
  rw [if_neg h1, if_neg (not_not_intro h2), if_pos ?hl]
  case hl =>
    simp only [bmul, appendOnes, prependOnes, moveaxis, List.length_append,
      List.length_zipWith, List.length_map, List.length_range, List.length_replicate,
      hrx, hry, hfx, hfy]
    omega

/-- Entries of a moved-axes tensor, stated on the raw value field. -/
theorem moveaxis_val (t : Tensor) (dest : List Nat) (idx : List Nat) :
    (moveaxis t dest).val idx = t.val (dest.map (fun d => idx.getD d 0)) := rfl

/-- The broadcast-multiplied tensor of factor_product, read at the joint
assignment A laid out over the canonical variable order, is the product of
the two operands read at A in their own variable orders. -/
theorem product_res_get (xv yv : List String) (dx dy : Tensor)
    (hndx : xv.Nodup) (hndy : yv.Nodup)
    (hrx : dx.shape.length = xv.length) (hry : dy.shape.length = yv.length)
    (A : String → Nat)
    (hAx : ∀ v ∈ xv, A v < dx.shape.getD (List.indexOf v xv) 0)
    (hAy : ∀ v ∈ yv, A v < dy.shape.getD (List.indexOf v yv) 0) :
    (bmul
      (appendOnes (moveaxis dx (destX xv (intersect1d xv yv)))
        (yv.filter (fun v => ¬ v ∈ xv)).length)
      (prependOnes (xv.filter (fun v => ¬ v ∈ yv)).length
        (moveaxis dy (destY yv (intersect1d xv yv))))).get
      ((xv.filter (fun v => ¬ v ∈ yv) ++ intersect1d xv yv
        ++ yv.filter (fun v => ¬ v ∈ xv)).map A)
      = dx.get (xv.map A) * dy.get (yv.map A) := by
  have hfx := filter_not_mem_intersect_left xv yv
  have hfy := filter_not_mem_intersect_right xv yv
  rw [hfx, hfy]
  have hsubx : ∀ v ∈ intersect1d xv yv, v ∈ xv := fun v hv => (mem_intersect1d.mp hv).1
  have hsuby : ∀ v ∈ intersect1d xv yv, v ∈ yv := fun v hv => (mem_intersect1d.mp hv).2
  have hxynd : (intersect1d xv yv).Nodup := nodup_intersect1d hndx
  have hlx := length_filter_mem_intersect1d xv yv
  have hly := length_filter_mem_intersect1d_right xv yv hndx hndy
  have hpx := length_filter_mem_partition xv (intersect1d xv yv)
  have hpy := length_filter_mem_partition yv (intersect1d xv yv)
  have hlen1 : (moveaxis dx (destX xv (intersect1d xv yv))).shape.length = dx.shape.length := by
    simp [moveaxis]
  have hlen2 : (moveaxis dy (destY yv (intersect1d xv yv))).shape.length = dy.shape.length := by
    simp [moveaxis]
  have hxdshape : (moveaxis dx (destX xv (intersect1d xv yv))).shape
      = (srcX xv (intersect1d xv yv)).map (fun j => dx.shape.getD j 0) := by
    apply moveaxis_shape
    · rw [destX_length, hrx]
    · rw [srcX_length _ _ hlx, hrx]
    · intro i hi
      rw [hrx] at hi ⊢
      exact destX_bij xv _ hndx hlx i hi
    · intro j hj
      rw [hrx] at hj ⊢
      exact srcX_bij xv _ hndx hxynd hsubx hlx j hj
  have hydshape : (moveaxis dy (destY yv (intersect1d xv yv))).shape
      = (srcY yv (intersect1d xv yv)).map (fun j => dy.shape.getD j 0) := by
    apply moveaxis_shape
    · rw [destY_length, hry]
    · rw [srcY_length _ _ hly, hry]
    · intro i hi
      rw [hry] at hi ⊢
      exact destY_bij yv _ hndy hly i hi
    · intro j hj
      rw [hry] at hj ⊢
      exact srcY_bij yv _ hndy hxynd hsuby hly j hj
  have hcx : (xv.filter (fun w => ¬ w ∈ intersect1d xv yv) ++ intersect1d xv yv).length
      = dx.shape.length := by
    simp only [List.length_append]
    omega
  have hcy : (intersect1d xv yv ++ yv.filter (fun w => ¬ w ∈ intersect1d xv yv)).length
      = dy.shape.length := by
    simp only [List.length_append]
    omega
  -- the index seen by x after broadcasting is the canonical x layout
  have hxarg :
      (bidx ((moveaxis dx (destX xv (intersect1d xv yv))).shape
          ++ List.replicate (yv.filter (fun w => ¬ w ∈ intersect1d xv yv)).length 1)
        (((xv.filter (fun w => ¬ w ∈ intersect1d xv yv) ++ intersect1d xv yv
          ++ yv.filter (fun w => ¬ w ∈ intersect1d xv yv)).map A))).take dx.shape.length
      = (xv.filter (fun w => ¬ w ∈ intersect1d xv yv) ++ intersect1d xv yv).map A := by
    unfold bidx
    rw [List.take_zipWith, List.take_left' (by rw [hlen1]), List.map_append,
      List.take_left' (by rw [List.length_map]; exact hcx)]
    apply bidx_eq_self
    · rw [hlen1, List.length_map]
      exact hcx.symm
    · intro k hk h1
      rw [hlen1, hrx] at hk
      have hklt : k < (xv.filter (fun w => ¬ w ∈ intersect1d xv yv)
          ++ intersect1d xv yv).length := by rw [hcx, hrx]; exact hk
      rw [getD_map_lt A "" 0 hklt]
      rw [hxdshape, getD_map_lt (fun j => dx.shape.getD j 0) 0 0
        (by rw [srcX_length _ _ hlx]; exact hk)] at h1
      rw [show (srcX xv (intersect1d xv yv)).getD k 0 =
          List.indexOf ((xv.filter (fun w => ¬ w ∈ intersect1d xv yv)
            ++ intersect1d xv yv).getD k "") xv from by
        unfold srcX
        rw [getD_map_lt (fun v => List.indexOf v xv) "" 0 hklt]] at h1
      have hw : (xv.filter (fun w => ¬ w ∈ intersect1d xv yv)
          ++ intersect1d xv yv).getD k "" ∈ xv := by
        have hmem := getD_mem "" hklt
        rcases List.mem_append.mp hmem with h | h
        · exact (List.mem_filter.mp h).1
        · exact hsubx _ h
      have hlt := hAx _ hw
      rw [h1] at hlt
      exact Nat.lt_one_iff.mp hlt
  -- the index seen by y after broadcasting is the canonical y layout
  have hyarg :
      (bidx (List.replicate (xv.filter (fun w => ¬ w ∈ intersect1d xv yv)).length 1
          ++ (moveaxis dy (destY yv (intersect1d xv yv))).shape)
        (((xv.filter (fun w => ¬ w ∈ intersect1d xv yv) ++ intersect1d xv yv
          ++ yv.filter (fun w => ¬ w ∈ intersect1d xv yv)).map A))).drop
        (xv.filter (fun w => ¬ w ∈ intersect1d xv yv)).length
      = (intersect1d xv yv ++ yv.filter (fun w => ¬ w ∈ intersect1d xv yv)).map A := by
    unfold bidx
    rw [List.drop_zipWith, List.drop_left' (List.length_replicate _ _),
      List.append_assoc, List.map_append,
      List.drop_left' (by rw [List.length_map])]
    apply bidx_eq_self
    · rw [hlen2, List.length_map]
      exact hcy.symm
    · intro k hk h1
      rw [hlen2, hry] at hk
      have hklt : k < (intersect1d xv yv
          ++ yv.filter (fun w => ¬ w ∈ intersect1d xv yv)).length := by
        rw [hcy, hry]; exact hk
      rw [getD_map_lt A "" 0 hklt]
      rw [hydshape, getD_map_lt (fun j => dy.shape.getD j 0) 0 0
        (by rw [srcY_length _ _ hly]; exact hk)] at h1
      rw [show (srcY yv (intersect1d xv yv)).getD k 0 =
          List.indexOf ((intersect1d xv yv
            ++ yv.filter (fun w => ¬ w ∈ intersect1d xv yv)).getD k "") yv from by
        unfold srcY
        rw [getD_map_lt (fun v => List.indexOf v yv) "" 0 hklt]] at h1
      have hw : (intersect1d xv yv
          ++ yv.filter (fun w => ¬ w ∈ intersect1d xv yv)).getD k "" ∈ yv := by
        have hmem := getD_mem "" hklt
        rcases List.mem_append.mp hmem with h | h
        · exact hsuby _ h
        · exact (List.mem_filter.mp h).1
      have hlt := hAy _ hw
      rw [h1] at hlt
      exact Nat.lt_one_iff.mp hlt
  simp only [bmul, appendOnes, prependOnes, Tensor.get]
  rw [hlen1, hxarg, hyarg, moveaxis_val, moveaxis_val]
  congr 1
  · apply congrArg
    rw [show (xv.filter (fun w => ¬ w ∈ intersect1d xv yv) ++ intersect1d xv yv).map A
        = (xv.filter (fun w => ¬ w ∈ intersect1d xv yv)).map A
          ++ (intersect1d xv yv).map A from List.map_append _ _ _]
    exact destX_map_values xv (intersect1d xv yv) A
  · apply congrArg
    rw [show (intersect1d xv yv ++ yv.filter (fun w => ¬ w ∈ intersect1d xv yv)).map A
        = (intersect1d xv yv).map A
          ++ (yv.filter (fun w => ¬ w ∈ intersect1d xv yv)).map A from List.map_append _ _ _]
    exact destY_map_values yv (intersect1d xv yv) A hly

/-! Core correctness of factor_marginalization. -/

/-- The index of an element appended at the end, when absent before. -/
theorem indexOf_append_self {α : Type} [DecidableEq α] {t : List α} {a : α} (h : a ∉ t) :
    List.indexOf a (t ++ [a]) = t.length := by
  induction t with
  | nil => simp [List.indexOf_cons_self]
  | cons b t ih =>
    have hba : b ≠ a := fun he => h (he ▸ List.mem_cons_self b t)
    have hat : a ∉ t := fun he => h (List.mem_cons_of_mem b he)
    rw [List.cons_append, List.indexOf_cons_ne _ hba, ih hat, List.length_cons]

/-- Enumerating the matching positions of a duplicate-free list and reading
through any function of the position is the same as enumerating the
matching elements and reading through the function of their index. -/
theorem range_filter_map_eq {α β : Type} [DecidableEq α] (p : α → Bool) (f : Nat → β)
    (d : α) : ∀ (l : List α), l.Nodup →
    ((List.range l.length).filter (fun i => p (l.getD i d))).map f
      = (l.filter p).map (fun v => f (List.indexOf v l)) := by
  intro l
  induction l using List.reverseRecOn with
  | nil => simp
  | append_singleton t a ih =>
    intro hnd
    have hat : a ∉ t := by
      have h2 := List.nodup_append.mp hnd
      intro hmem
      exact h2.2.2 hmem (List.mem_singleton_self a)
    have hndt : t.Nodup := (List.nodup_append.mp hnd).1
    rw [List.length_append, List.length_singleton, List.range_succ, List.filter_append,
      List.map_append, List.filter_append, List.map_append]
    have h1 : (List.range t.length).filter (fun i => p ((t ++ [a]).getD i d))
        = (List.range t.length).filter (fun i => p (t.getD i d)) := by
      apply List.filter_congr
      intro i hi
      rw [List.getD_append _ _ _ _ (List.mem_range.mp hi)]
    have h2 : (t ++ [a]).getD t.length d = a := by
      rw [List.getD_append_right _ _ _ _ (le_refl _), Nat.sub_self]
      rfl
    congr 1
    · rw [h1, ih hndt]
      apply List.map_congr_left
      intro v hv
      rw [indexOf_append_left [a] ((List.mem_filter.mp hv).1)]
    · by_cases hpa : p a
      · simp only [List.filter_cons, h2, hpa, List.filter_nil, if_true, List.map_cons,
          List.map_nil]
        rw [indexOf_append_self hat]
      · simp [List.filter_cons, h2, hpa]

/-- mergeIdx over the removed-variable axes reproduces indexing x by the
assignment that overrides the removed variables with the tuple ridx. -/
theorem mergeIdx_eq_override (xv vars : List String) (hnd : xv.Nodup)
    (A : String → Nat) (ridx : List Nat) :
    mergeIdx xv.length
      ((List.range xv.length).filter (fun i => xv.getD i "" ∈ vars))
      ((xv.filter (fun v => ¬ v ∈ vars)).map A) ridx
    = xv.map (fun v =>
        if v ∈ vars then ridx.getD (List.indexOf v (xv.filter (fun w => w ∈ vars))) 0
        else A v) := by
  unfold mergeIdx
  apply List.ext_getElem
  · simp
  · intro i h1 h2
    rw [List.getElem_map, List.getElem_map, List.getElem_range]
    have hi : i < xv.length := by simpa using h1
    rw [← List.getD_eq_getElem xv "" hi]
    have haxmem : ∀ j, j < xv.length →
        (j ∈ (List.range xv.length).filter (fun i => xv.getD i "" ∈ vars)
          ↔ xv.getD j "" ∈ vars) := by
      intro j hj
      simp [List.mem_filter, List.mem_range, hj]
    by_cases hm : xv.getD i "" ∈ vars
    · rw [if_pos ((haxmem i hi).mpr hm), if_pos hm]
      congr 1
      have ha : (List.range i).filter
          (fun j => j ∈ (List.range xv.length).filter (fun i => xv.getD i "" ∈ vars))
          = (List.range i).filter (fun j => xv.getD j "" ∈ vars) := by
        apply List.filter_congr
        intro j hj
        have hji : j < xv.length := lt_of_lt_of_le (List.mem_range.mp hj) (le_of_lt hi)
        rw [decide_eq_decide]
        exact haxmem j hji
      rw [ha, cnt_range_eq (fun v => v ∈ vars) xv "" i (le_of_lt hi),
        ← filter_indexOf_cnt (fun v => v ∈ vars) xv i "" hnd hi (by simpa using hm)]
    · rw [if_neg (fun hmem => hm ((haxmem i hi).mp hmem)), if_neg hm]
      have ha : (List.range i).filter
          (fun j => ¬ j ∈ (List.range xv.length).filter (fun i => xv.getD i "" ∈ vars))
          = (List.range i).filter (fun j => ¬ xv.getD j "" ∈ vars) := by
        apply List.filter_congr
        intro j hj
        have hji : j < xv.length := lt_of_lt_of_le (List.mem_range.mp hj) (le_of_lt hi)
        rw [decide_eq_decide]
        exact not_congr (haxmem j hji)
      have hcnt := cnt_lt_filter_length (fun v => ¬ v ∈ vars) xv i "" hi (by simpa using hm)
      rw [ha, cnt_range_eq (fun v => ¬ v ∈ vars) xv "" i (le_of_lt hi),
        getD_map_lt A "" 0 hcnt,
        filter_getD_cnt (fun v => ¬ v ∈ vars) xv i "" hi (by simpa using hm)]

/-- On a well-formed factor and a variable list contained in its scope,
factor_marginalization succeeds and returns exactly the surviving
variables with the summed tensor. -/
theorem factor_marginalization_eq_ok (x : Factor) (d : Tensor) (vars : List String)
    (hx : x.distribution = some d)
    (hrank : d.shape.length = x.«variables».length)
    (hsub : ∀ v ∈ vars, v ∈ x.«variables») :
    factor_marginalization x vars = Except.ok
      { «variables» := x.«variables».filter (fun v => ¬ v ∈ vars),
        distribution := some (sumAxes d
          ((List.range x.«variables».length).filter
            (fun i => x.«variables».getD i "" ∈ vars))) } := by
  obtain ⟨xvars, xdist⟩ := x
  dsimp only at hx hrank hsub ⊢
  subst hx
  have hall : vars.all (fun v => v ∈ xvars) = true := List.all_eq_true.mpr
    (fun v hv => by simpa using hsub v hv)
  have hkeep : ((List.range d.shape.length).filter
        (fun i => ¬ i ∈ (List.range xvars.length).filter
          (fun i => xvars.getD i "" ∈ vars))).length
      = (xvars.filter (fun v => ¬ v ∈ vars)).length := by
    have ha : (List.range d.shape.length).filter
          (fun i => ¬ i ∈ (List.range xvars.length).filter
            (fun i => xvars.getD i "" ∈ vars))
        = (List.range d.shape.length).filter (fun i => ¬ xvars.getD i "" ∈ vars) := by
      apply List.filter_congr
      intro j hj
      have hji : j < xvars.length := by rw [← hrank]; exact List.mem_range.mp hj
      rw [decide_eq_decide]
      apply not_congr
      simp [List.mem_filter, List.mem_range, hji]
    rw [ha, hrank, cnt_range_eq (fun v => ¬ v ∈ vars) xvars "" xvars.length (le_refl _),
      List.take_length]
  simp only [factor_marginalization, mkFactor]
  rw [if_neg (by rw [hall]; simp)]
  rw [if_pos (by rw [show (sumAxes d ((List.range xvars.length).filter
    (fun i => xvars.getD i "" ∈ vars))).shape.length =
      (xvars.filter (fun v => ¬ v ∈ vars)).length from by
        simp only [sumAxes, List.length_map]
        exact hkeep
    ])]

/-- The summed tensor of factor_marginalization, read at a joint assignment
A laid out over the surviving variables, is the sum over all value tuples
of the removed variables of the entries of x at the assignment overriding
the removed variables with the tuple. -/
theorem marginalization_res_get (xv vars : List String) (d : Tensor)
    (hnd : xv.Nodup) (hrank : d.shape.length = xv.length) (A : String → Nat) :
    (sumAxes d ((List.range xv.length).filter (fun i => xv.getD i "" ∈ vars))).get
      ((xv.filter (fun v => ¬ v ∈ vars)).map A)
    = ((allIdx ((xv.filter (fun v => v ∈ vars)).map
          (fun v => d.shape.getD (List.indexOf v xv) 0))).map
        (fun ridx => d.get (xv.map (fun v =>
          if v ∈ vars then ridx.getD (List.indexOf v (xv.filter (fun w => w ∈ vars))) 0
          else A v)))).sum := by
  simp only [sumAxes, Tensor.get]
  rw [show ((List.range xv.length).filter (fun i => xv.getD i "" ∈ vars)).map
        (fun i => d.shape.getD i 0)
      = (xv.filter (fun v => v ∈ vars)).map (fun v => d.shape.getD (List.indexOf v xv) 0)
    from range_filter_map_eq (fun v => v ∈ vars) (fun i => d.shape.getD i 0) "" xv hnd]
  apply congrArg List.sum
  apply List.map_congr_left
  intro ridx _
  apply congrArg d.val
  rw [hrank]
  exact mergeIdx_eq_override xv vars hnd A ridx

/-! Core correctness of factor_reduction. -/

/-- In a duplicate-free list the elements equal to a member form exactly
that one element. -/
theorem filter_eq_singleton_of_nodup {l : List String} {v : String}
    (hnd : l.Nodup) (hv : v ∈ l) : l.filter (fun w => w = v) = [v] := by
  induction l with
  | nil => simp at hv
  | cons a t ih =>
    rcases List.nodup_cons.mp hnd with ⟨hat, hndt⟩
    by_cases hav : a = v
    · subst hav
      have hft : t.filter (fun w => w = a) = [] := by
        apply List.filter_eq_nil_iff.mpr
        intro w hw
        have hwa : ¬ (w = a) := fun he => hat (he ▸ hw)
        simpa using hwa
      simp [List.filter_cons, hft]
    · have hvt : v ∈ t := by
        rcases List.mem_cons.mp hv with h | h
        · exact absurd h.symm hav
        · exact h
      simp only [List.filter_cons, decide_eq_true_eq, hav, if_false]
      exact ih hndt hvt

/-- Inserting the fixed value at the axis of the reduced variable turns the
surviving index layout into x indexed by the overriding assignment. -/
theorem insIdx_filter_map (v : String) (A : String → Nat) (j : Nat) :
    ∀ (xv : List String), xv.Nodup → v ∈ xv →
      insIdx (List.indexOf v xv) j ((xv.filter (fun w => ¬ w = v)).map A)
        = xv.map (fun w => if w = v then j else A w) := by
  intro xv
  induction xv with
  | nil => intro _ hv; simp at hv
  | cons a t ih =>
    intro hnd hv
    rcases List.nodup_cons.mp hnd with ⟨hat, hndt⟩
    by_cases hav : a = v
    · subst hav
      rw [List.indexOf_cons_self]
      have hft : t.filter (fun w => ¬ w = a) = t := by
        apply List.filter_eq_self.mpr
        intro w hw
        have hwa : ¬ (w = a) := fun he => hat (he ▸ hw)
        simpa using hwa
      have hmapt : t.map (fun w => if w = a then j else A w) = t.map A := by
        apply List.map_congr_left
        intro w hw
        have hwa : ¬ (w = a) := fun he => hat (he ▸ hw)
        rw [if_neg hwa]
      calc insIdx 0 j (((a :: t).filter (fun w => ¬ w = a)).map A)
          = insIdx 0 j ((t.filter (fun w => ¬ w = a)).map A) := by
            rw [show (a :: t).filter (fun w => ¬ w = a) = t.filter (fun w => ¬ w = a) from by
              rw [List.filter_cons, if_neg (by simp)]]
        _ = j :: t.map A := by rw [hft]; rfl
        _ = (a :: t).map (fun w => if w = a then j else A w) := by
            rw [List.map_cons, if_pos rfl, hmapt]
    · have hvt : v ∈ t := by
        rcases List.mem_cons.mp hv with h | h
        · exact absurd h.symm hav
        · exact h
      rw [List.indexOf_cons_ne _ hav]
      simp only [List.filter_cons, decide_eq_true_eq]
      rw [if_pos hav]
      simp only [List.map_cons, Nat.succ_eq_add_one, insIdx]
      rw [ih hndt hvt]
      simp [hav]

/-- Partition of a length by a decidable property. -/
theorem length_filter_prop_partition {α : Type} (P : α → Prop) [DecidablePred P]
    (l : List α) :
    (l.filter (fun a => P a)).length + (l.filter (fun a => ¬ P a)).length = l.length := by
  induction l with
  | nil => rfl
  | cons a t ih =>
    by_cases h : P a <;> simp [List.filter_cons, h, ← ih] <;> omega

/-- On a well-formed factor, a variable of its scope and a value index
inside the np.take bounds, factor_reduction succeeds and returns exactly
the surviving variables with the sliced tensor. -/
theorem factor_reduction_eq_ok (x : Factor) (d : Tensor) (v : String) (value : Int)
    (hx : x.distribution = some d) (hnd : x.«variables».Nodup)
    (hrank : d.shape.length = x.«variables».length)
    (hv : v ∈ x.«variables»)
    (hlow : -(d.shape.getD (List.indexOf v x.«variables») 0 : Int) ≤ value)
    (hhigh : value < (d.shape.getD (List.indexOf v x.«variables») 0 : Int)) :
    factor_reduction x v value = Except.ok
      { «variables» := x.«variables».filter (fun w => ¬ w = v),
        distribution := some (npTake d value (List.indexOf v x.«variables»)) } := by
  obtain ⟨xvars, xdist⟩ := x
  dsimp only at hx hnd hrank hv hlow hhigh ⊢
  subst hx
  have hone : (xvars.filter (fun w => w = v)).length = 1 := by
    rw [filter_eq_singleton_of_nodup hnd hv]
    rfl
  have hpart := length_filter_prop_partition (fun w => w = v) xvars
  have haxis : List.indexOf v xvars < d.shape.length := by
    rw [hrank]
    exact List.indexOf_lt_length.mpr hv
  have herase : (d.shape.eraseIdx (List.indexOf v xvars)).length = d.shape.length - 1 := by
    rw [List.length_eraseIdx, if_pos haxis]
  simp only [factor_reduction, mkFactor, npTake]
  rw [if_neg (not_not_intro hv), if_neg (not_le.mpr hhigh), if_neg (not_lt.mpr hlow),
    if_pos (by rw [herase]; omega)]

/-- The sliced tensor of factor_reduction, read at a joint assignment A
laid out over the surviving variables, is the entry of x at the
assignment fixing the reduced variable to the normalized index. -/
theorem reduction_res_get (xv : List String) (d : Tensor) (v : String) (value : Int)
    (hnd : xv.Nodup) (hv : v ∈ xv) (A : String → Nat) :
    (npTake d value (List.indexOf v xv)).get ((xv.filter (fun w => ¬ w = v)).map A)
      = d.get (xv.map (fun w => if w = v then
          ((if value < 0 then value + (d.shape.getD (List.indexOf v xv) 0 : Int)
            else value).toNat)
          else A w)) := by
  simp only [npTake, Tensor.get]
  apply congrArg d.val
  exact insIdx_filter_map v A _ xv hnd hv

/-! Concrete factors used to witness the claim theorems. -/

/-- Example 3 x 2 tensor over the variables a, b. -/
def exT1 : Tensor :=
  { shape := [3, 2], val := fun idx => (idx.getD 0 0 : ℚ) + 2 * (idx.getD 1 0 : ℚ) + 1 }

/-- Example 2 x 2 tensor over the variables b, c. -/
def exT2 : Tensor :=
  { shape := [2, 2], val := fun idx => (idx.getD 0 0 : ℚ) + 7 * (idx.getD 1 0 : ℚ) + 1 }

/-- Example factor over a, b. -/
def exX : Factor := { «variables» := ["a", "b"], distribution := some exT1 }

/-- Example factor over b, c. -/
def exY : Factor := { «variables» := ["b", "c"], distribution := some exT2 }

/-- Example empty factor, built from variables alone. -/
def exE : Factor := { «variables» := ["a"], distribution := none }

/-- Example joint assignment of values to the variables a, b, c. -/
def exA : String → Nat := fun v => if v = "a" then 2 else if v = "b" then 1 else 0

/-! The claims. -/

/-- C1: for every two non-empty well-formed factors x and y that share at
least one variable, with every shared variable having the same cardinality
in both, factor_product(x, y) returns a tensor satisfying pointwise value
decomposition: at every joint assignment (a to x-only variables, s to the
shared variables, b to y-only variables) the result entry equals the entry
of x at (a, s) times the entry of y at (s, b). -/
theorem C1_factor_product_value_decomposition
    (x y : Factor) (dx dy : Tensor)
    (hx : x.distribution = some dx) (hy : y.distribution = some dy)
    (hndx : x.«variables».Nodup) (hndy : y.«variables».Nodup)
    (hrx : dx.shape.length = x.«variables».length)
    (hry : dy.shape.length = y.«variables».length)
    (hne : intersect1d x.«variables» y.«variables» ≠ [])
    (hcard : ∀ v ∈ intersect1d x.«variables» y.«variables»,
      dx.shape.getD (List.indexOf v x.«variables») 0
        = dy.shape.getD (List.indexOf v y.«variables») 0)
    (A : String → Nat)
    (hAx : ∀ v ∈ x.«variables», A v < dx.shape.getD (List.indexOf v x.«variables») 0)
    (hAy : ∀ v ∈ y.«variables», A v < dy.shape.getD (List.indexOf v y.«variables») 0) :
    ∃ r dr, factor_product x y = Except.ok r ∧ r.distribution = some dr ∧
      dr.get ((x.«variables».filter (fun v => ¬ v ∈ y.«variables»)).map A
          ++ (intersect1d x.«variables» y.«variables»).map A
          ++ (y.«variables».filter (fun v => ¬ v ∈ x.«variables»)).map A)
        = dx.get (x.«variables».map A) * dy.get (y.«variables».map A) := by
  refine ⟨_, _, factor_product_eq_ok x y dx dy hx hy hndx hndy hrx hry hne hcard, rfl, ?_⟩
  rw [show (x.«variables».filter (fun v => ¬ v ∈ y.«variables»)).map A
        ++ (intersect1d x.«variables» y.«variables»).map A
        ++ (y.«variables».filter (fun v => ¬ v ∈ x.«variables»)).map A
      = (x.«variables».filter (fun v => ¬ v ∈ y.«variables»)
        ++ intersect1d x.«variables» y.«variables»
        ++ y.«variables».filter (fun v => ¬ v ∈ x.«variables»)).map A from by
    rw [List.map_append, List.map_append]]
  exact product_res_get x.«variables» y.«variables» dx dy hndx hndy hrx hry A hAx hAy

/-- C1 witness: the decomposition at a concrete pair of factors and a
concrete assignment. -/
theorem C1_factor_product_value_decomposition_witness :
    exX.«variables».Nodup ∧
    (∃ r dr, factor_product exX exY = Except.ok r ∧ r.distribution = some dr ∧
      dr.get ((exX.«variables».filter (fun v => ¬ v ∈ exY.«variables»)).map exA
          ++ (intersect1d exX.«variables» exY.«variables»).map exA
          ++ (exY.«variables».filter (fun v => ¬ v ∈ exX.«variables»)).map exA)
        = exT1.get (exX.«variables».map exA) * exT2.get (exY.«variables».map exA)) :=
  ⟨by decide, C1_factor_product_value_decomposition exX exY exT1 exT2 rfl rfl
    (by decide) (by decide) (by decide) (by decide) (by decide) (by decide)
    exA (by decide) (by decide)⟩

/-- C2: for every two non-empty well-formed factors with a non-empty
shared variable set and matching shared cardinalities, the variable
sequence of factor_product(x, y) is x_only ++ shared ++ y_only, where
x_only and y_only are the non-shared variables of x and of y, each kept in
its original relative order (they are sublists of the operand scopes). -/
theorem C2_factor_product_variable_order
    (x y : Factor) (dx dy : Tensor)
    (hx : x.distribution = some dx) (hy : y.distribution = some dy)
    (hndx : x.«variables».Nodup) (hndy : y.«variables».Nodup)
    (hrx : dx.shape.length = x.«variables».length)
    (hry : dy.shape.length = y.«variables».length)
    (hne : intersect1d x.«variables» y.«variables» ≠ [])
    (hcard : ∀ v ∈ intersect1d x.«variables» y.«variables»,
      dx.shape.getD (List.indexOf v x.«variables») 0
        = dy.shape.getD (List.indexOf v y.«variables») 0) :
    ∃ r, factor_product x y = Except.ok r ∧
      r.«variables» = x.«variables».filter (fun v => ¬ v ∈ y.«variables»)
        ++ intersect1d x.«variables» y.«variables»
        ++ y.«variables».filter (fun v => ¬ v ∈ x.«variables») ∧
      (x.«variables».filter (fun v => ¬ v ∈ y.«variables»)).Sublist x.«variables» ∧
      (y.«variables».filter (fun v => ¬ v ∈ x.«variables»)).Sublist y.«variables» :=
  ⟨_, factor_product_eq_ok x y dx dy hx hy hndx hndy hrx hry hne hcard, rfl,
    List.filter_sublist _, List.filter_sublist _⟩

/-- C2 witness: the variable order at a concrete pair of factors. -/
theorem C2_factor_product_variable_order_witness :
    exX.«variables».Nodup ∧
    (∃ r, factor_product exX exY = Except.ok r ∧
      r.«variables» = exX.«variables».filter (fun v => ¬ v ∈ exY.«variables»)
        ++ intersect1d exX.«variables» exY.«variables»
        ++ exY.«variables».filter (fun v => ¬ v ∈ exX.«variables») ∧
      (exX.«variables».filter (fun v => ¬ v ∈ exY.«variables»)).Sublist exX.«variables» ∧
      (exY.«variables».filter (fun v => ¬ v ∈ exX.«variables»)).Sublist exY.«variables») :=
  ⟨by decide, C2_factor_product_variable_order exX exY exT1 exT2 rfl rfl
    (by decide) (by decide) (by decide) (by decide) (by decide) (by decide)⟩

/-- C6: for every two non-empty well-formed factors x and y,
factor_product(x, y) fails with the no-common-variables error when the
intersection of the scopes is empty, fails with the cardinality-mismatch
error when some shared variable has different cardinalities, and succeeds
otherwise. -/
theorem C6_factor_product_validation
    (x y : Factor) (dx dy : Tensor)
    (hx : x.distribution = some dx) (hy : y.distribution = some dy)
    (hndx : x.«variables».Nodup) (hndy : y.«variables».Nodup)
    (hrx : dx.shape.length = x.«variables».length)
    (hry : dy.shape.length = y.«variables».length) :
    (intersect1d x.«variables» y.«variables» = [] →
      factor_product x y = Except.error Err.noCommonVariables) ∧
    (intersect1d x.«variables» y.«variables» ≠ [] →
      ¬ (∀ v ∈ intersect1d x.«variables» y.«variables»,
        dx.shape.getD (List.indexOf v x.«variables») 0
          = dy.shape.getD (List.indexOf v y.«variables») 0) →
      factor_product x y = Except.error Err.commonVariablesDifferentCardinality) ∧
    (intersect1d x.«variables» y.«variables» ≠ [] →
      (∀ v ∈ intersect1d x.«variables» y.«variables»,
        dx.shape.getD (List.indexOf v x.«variables») 0
          = dy.shape.getD (List.indexOf v y.«variables») 0) →
      ∃ r, factor_product x y = Except.ok r) := by
  obtain ⟨xvars, xdist⟩ := x
  obtain ⟨yvars, ydist⟩ := y
  dsimp only at hx hy hndx hndy hrx hry ⊢
  subst hx
  subst hy
  refine ⟨?_, ?_, ?_⟩
  · intro h0
    simp only [factor_product]
    rw [if_pos (by rw [h0]; rfl)]
  · intro hne hnall
    simp only [factor_product]
    rw [if_neg (fun h => hne (List.length_eq_zero.mp h)),
      if_pos (fun heq => hnall (List.map_eq_map_iff.mp heq))]
  · intro hne hall
    exact ⟨_, factor_product_eq_ok ⟨xvars, some dx⟩ ⟨yvars, some dy⟩ dx dy rfl rfl
      hndx hndy hrx hry hne hall⟩

/-- C6 witness: the success side at a concrete compatible pair, and the
two failure sides at concrete incompatible pairs. -/
theorem C6_factor_product_validation_witness :
    exX.«variables».Nodup ∧
    (∃ r, factor_product exX exY = Except.ok r) :=
  ⟨by decide,
    (C6_factor_product_validation exX exY exT1 exT2 rfl rfl
      (by decide) (by decide) (by decide) (by decide)).2.2 (by decide) (by decide)⟩

/-- C9: for every two non-empty well-formed factors with a non-empty
shared variable set and matching shared cardinalities, factor_product(x,y)
and factor_product(y,x) hold the same value at the entries corresponding
to every joint assignment, each read under its own variable order. -/
theorem C9_factor_product_numeric_symmetry
    (x y : Factor) (dx dy : Tensor)
    (hx : x.distribution = some dx) (hy : y.distribution = some dy)
    (hndx : x.«variables».Nodup) (hndy : y.«variables».Nodup)
    (hrx : dx.shape.length = x.«variables».length)
    (hry : dy.shape.length = y.«variables».length)
    (hne : intersect1d x.«variables» y.«variables» ≠ [])
    (hcard : ∀ v ∈ intersect1d x.«variables» y.«variables»,
      dx.shape.getD (List.indexOf v x.«variables») 0
        = dy.shape.getD (List.indexOf v y.«variables») 0)
    (A : String → Nat)
    (hAx : ∀ v ∈ x.«variables», A v < dx.shape.getD (List.indexOf v x.«variables») 0)
    (hAy : ∀ v ∈ y.«variables», A v < dy.shape.getD (List.indexOf v y.«variables») 0) :
    ∃ r1 r2 d1 d2, factor_product x y = Except.ok r1 ∧
      factor_product y x = Except.ok r2 ∧
      r1.distribution = some d1 ∧ r2.distribution = some d2 ∧
      d1.get (r1.«variables».map A) = d2.get (r2.«variables».map A) := by
  have hne2 : intersect1d y.«variables» x.«variables» ≠ [] := by
    obtain ⟨v, hv⟩ := List.exists_mem_of_ne_nil _ hne
    intro hemp
    have hv2 := mem_intersect1d.mp hv
    have : v ∈ intersect1d y.«variables» x.«variables» :=
      mem_intersect1d.mpr ⟨hv2.2, hv2.1⟩
    rw [hemp] at this
    simp at this
  have hcard2 : ∀ v ∈ intersect1d y.«variables» x.«variables»,
      dy.shape.getD (List.indexOf v y.«variables») 0
        = dx.shape.getD (List.indexOf v x.«variables») 0 := by
    intro v hv
    have hv2 := mem_intersect1d.mp hv
    exact (hcard v (mem_intersect1d.mpr ⟨hv2.2, hv2.1⟩)).symm
  refine ⟨_, _, _, _,
    factor_product_eq_ok x y dx dy hx hy hndx hndy hrx hry hne hcard,
    factor_product_eq_ok y x dy dx hy hx hndy hndx hry hrx hne2 hcard2,
    rfl, rfl, ?_⟩
  show (bmul _ _).get _ = (bmul _ _).get _
  rw [product_res_get x.«variables» y.«variables» dx dy hndx hndy hrx hry A hAx hAy,
    product_res_get y.«variables» x.«variables» dy dx hndy hndx hry hrx A hAy hAx]
  exact mul_comm _ _

/-- C9 witness: numeric symmetry at a concrete pair and assignment. -/
theorem C9_factor_product_numeric_symmetry_witness :
    exX.«variables».Nodup ∧
    (∃ r1 r2 d1 d2, factor_product exX exY = Except.ok r1 ∧
      factor_product exY exX = Except.ok r2 ∧
      r1.distribution = some d1 ∧ r2.distribution = some d2 ∧
      d1.get (r1.«variables».map exA) = d2.get (r2.«variables».map exA)) :=
  ⟨by decide, C9_factor_product_numeric_symmetry exX exY exT1 exT2 rfl rfl
    (by decide) (by decide) (by decide) (by decide) (by decide) (by decide)
    exA (by decide) (by decide)⟩

/-- Shape of the summed tensor of factor_marginalization: one axis per
surviving variable, with its own cardinality, in the original order. -/
theorem marginalization_res_shape (xv vars : List String) (d : Tensor)
    (hnd : xv.Nodup) (hrank : d.shape.length = xv.length) :
    (sumAxes d ((List.range xv.length).filter (fun i => xv.getD i "" ∈ vars))).shape
      = (xv.filter (fun v => ¬ v ∈ vars)).map
          (fun v => d.shape.getD (List.indexOf v xv) 0) := by
  simp only [sumAxes]
  rw [hrank]
  rw [show (List.range xv.length).filter
        (fun i => ¬ i ∈ (List.range xv.length).filter (fun i => xv.getD i "" ∈ vars))
      = (List.range xv.length).filter (fun i => ¬ xv.getD i "" ∈ vars) from by
    apply List.filter_congr
    intro j hj
    rw [decide_eq_decide]
    exact not_congr (by simp [List.mem_filter, List.mem_range, List.mem_range.mp hj])]
  exact range_filter_map_eq (fun v => ¬ v ∈ vars) (fun i => d.shape.getD i 0) "" xv hnd

/-- C3: for every non-empty well-formed factor x and every subset
vars_to_remove of its scope, factor_marginalization returns the factor
whose variables are those of x with vars_to_remove deleted in their
original relative order, and whose tensor is the tensor of x summed over
exactly the removed axes: each entry over the survivors is the sum, over
all value tuples of the removed variables, of the entries of x, each
surviving variable keeping its own axis and cardinality. -/
theorem C3_factor_marginalization_sums_removed_axes
    (x : Factor) (d : Tensor) (vars : List String)
    (hx : x.distribution = some d) (hnd : x.«variables».Nodup)
    (hrank : d.shape.length = x.«variables».length)
    (hsub : ∀ v ∈ vars, v ∈ x.«variables») (A : String → Nat) :
    ∃ r dm, factor_marginalization x vars = Except.ok r ∧ r.distribution = some dm ∧
      r.«variables» = x.«variables».filter (fun v => ¬ v ∈ vars) ∧
      (x.«variables».filter (fun v => ¬ v ∈ vars)).Sublist x.«variables» ∧
      dm.shape = (x.«variables».filter (fun v => ¬ v ∈ vars)).map
        (fun v => d.shape.getD (List.indexOf v x.«variables») 0) ∧
      dm.get ((x.«variables».filter (fun v => ¬ v ∈ vars)).map A)
        = ((allIdx ((x.«variables».filter (fun v => v ∈ vars)).map
              (fun v => d.shape.getD (List.indexOf v x.«variables») 0))).map
            (fun ridx => d.get (x.«variables».map (fun v =>
              if v ∈ vars then
                ridx.getD (List.indexOf v (x.«variables».filter (fun w => w ∈ vars))) 0
              else A v)))).sum := by
  refine ⟨_, _, factor_marginalization_eq_ok x d vars hx hrank hsub, rfl, rfl,
    List.filter_sublist _, ?_, ?_⟩
  · exact marginalization_res_shape x.«variables» vars d hnd hrank
  · exact marginalization_res_get x.«variables» vars d hnd hrank A

/-- C3 witness: marginalizing a concrete factor over one variable. -/
theorem C3_factor_marginalization_sums_removed_axes_witness :
    exX.«variables».Nodup ∧
    (∃ r dm, factor_marginalization exX ["b"] = Except.ok r ∧
      r.distribution = some dm ∧
      r.«variables» = exX.«variables».filter (fun v => ¬ v ∈ ["b"]) ∧
      (exX.«variables».filter (fun v => ¬ v ∈ ["b"])).Sublist exX.«variables» ∧
      dm.shape = (exX.«variables».filter (fun v => ¬ v ∈ ["b"])).map
        (fun v => exT1.shape.getD (List.indexOf v exX.«variables») 0) ∧
      dm.get ((exX.«variables».filter (fun v => ¬ v ∈ ["b"])).map exA)
        = ((allIdx ((exX.«variables».filter (fun v => v ∈ ["b"])).map
              (fun v => exT1.shape.getD (List.indexOf v exX.«variables») 0))).map
            (fun ridx => exT1.get (exX.«variables».map (fun v =>
              if v ∈ ["b"] then
                ridx.getD (List.indexOf v (exX.«variables».filter (fun w => w ∈ ["b"]))) 0
              else exA v)))).sum) :=
  ⟨by decide, C3_factor_marginalization_sums_removed_axes exX exT1 ["b"] rfl
    (by decide) (by decide) (by decide) exA⟩

/-- C4: for every non-empty well-formed factor x, every variable v of its
scope and every value index 0 <= i < cardinality of v, factor_reduction
returns the factor over the variables of x with v deleted in their
original order, whose tensor is exactly the sub-tensor of x at index i
along the axis of v (a slice, no aggregation): its shape erases that axis
and each entry is the entry of x with v fixed to i. -/
theorem C4_factor_reduction_slices
    (x : Factor) (d : Tensor) (v : String) (i : Int)
    (hx : x.distribution = some d) (hnd : x.«variables».Nodup)
    (hrank : d.shape.length = x.«variables».length)
    (hv : v ∈ x.«variables»)
    (h0 : 0 ≤ i)
    (hc : i < (d.shape.getD (List.indexOf v x.«variables») 0 : Int))
    (A : String → Nat) :
    ∃ r dr, factor_reduction x v i = Except.ok r ∧ r.distribution = some dr ∧
      r.«variables» = x.«variables».filter (fun w => ¬ w = v) ∧
      (x.«variables».filter (fun w => ¬ w = v)).Sublist x.«variables» ∧
      dr.shape = d.shape.eraseIdx (List.indexOf v x.«variables») ∧
      dr.get ((x.«variables».filter (fun w => ¬ w = v)).map A)
        = d.get (x.«variables».map (fun w => if w = v then i.toNat else A w)) := by
  refine ⟨_, _, factor_reduction_eq_ok x d v i hx hnd hrank hv (by omega) hc, rfl, rfl,
    List.filter_sublist _, rfl, ?_⟩
  have hif : (if i < 0 then i + (d.shape.getD (List.indexOf v x.«variables») 0 : Int)
      else i) = i := if_neg (not_lt.mpr h0)
  rw [reduction_res_get x.«variables» d v i hnd hv A, hif]

/-- C4 witness: reducing a concrete factor on one variable at index 1. -/
theorem C4_factor_reduction_slices_witness :
    exX.«variables».Nodup ∧
    (∃ r dr, factor_reduction exX "b" 1 = Except.ok r ∧ r.distribution = some dr ∧
      r.«variables» = exX.«variables».filter (fun w => ¬ w = "b") ∧
      (exX.«variables».filter (fun w => ¬ w = "b")).Sublist exX.«variables» ∧
      dr.shape = exT1.shape.eraseIdx (List.indexOf "b" exX.«variables») ∧
      dr.get ((exX.«variables».filter (fun w => ¬ w = "b")).map exA)
        = exT1.get (exX.«variables».map
            (fun w => if w = "b" then (1 : Int).toNat else exA w))) :=
  ⟨by decide, C4_factor_reduction_slices exX exT1 "b" 1 rfl (by decide) (by decide)
    (by decide) (by decide) (by decide) exA⟩

/-- C10: for every non-empty well-formed factor x containing v with
cardinality c and every negative value index -c <= i < 0, factor_reduction
does not fail (the out-of-range check only tests i >= c) and its tensor is
the slice of x at position c + i along the axis of v, counted from the
end. -/
theorem C10_factor_reduction_negative_index
    (x : Factor) (d : Tensor) (v : String) (i : Int)
    (hx : x.distribution = some d) (hnd : x.«variables».Nodup)
    (hrank : d.shape.length = x.«variables».length)
    (hv : v ∈ x.«variables»)
    (hneg : i < 0)
    (hlow : -(d.shape.getD (List.indexOf v x.«variables») 0 : Int) ≤ i)
    (A : String → Nat) :
    ∃ r dr, factor_reduction x v i = Except.ok r ∧ r.distribution = some dr ∧
      r.«variables» = x.«variables».filter (fun w => ¬ w = v) ∧
      dr.get ((x.«variables».filter (fun w => ¬ w = v)).map A)
        = d.get (x.«variables».map (fun w => if w = v then
            (i + (d.shape.getD (List.indexOf v x.«variables») 0 : Int)).toNat
          else A w)) := by
  refine ⟨_, _, factor_reduction_eq_ok x d v i hx hnd hrank hv hlow (by omega), rfl,
    rfl, ?_⟩
  have hif : (if i < 0 then i + (d.shape.getD (List.indexOf v x.«variables») 0 : Int)
      else i) = i + (d.shape.getD (List.indexOf v x.«variables») 0 : Int) := if_pos hneg
  rw [reduction_res_get x.«variables» d v i hnd hv A, hif]

/-- C10 witness: reducing a concrete factor at the negative index -1. -/
theorem C10_factor_reduction_negative_index_witness :
    exX.«variables».Nodup ∧
    (∃ r dr, factor_reduction exX "b" (-1) = Except.ok r ∧ r.distribution = some dr ∧
      r.«variables» = exX.«variables».filter (fun w => ¬ w = "b") ∧
      dr.get ((exX.«variables».filter (fun w => ¬ w = "b")).map exA)
        = exT1.get (exX.«variables».map (fun w => if w = "b" then
            ((-1 : Int) + (exT1.shape.getD (List.indexOf "b" exX.«variables») 0 : Int)).toNat
          else exA w))) :=
  ⟨by decide, C10_factor_reduction_negative_index exX exT1 "b" (-1) rfl (by decide)
    (by decide) (by decide) (by decide) (by decide) exA⟩

/-- C5: an empty factor (no distribution) is rejected by every operation:
factor_product in either argument position, factor_marginalization over
any variable list, factor_reduction on any variable and value, and
joint_distribution of any sequence containing it, each failing with the
respective empty-factor error and returning no result. -/
theorem C5_empty_factor_rejected_everywhere (e : Factor) (he : e.is_none = true) :
    (∀ y : Factor, factor_product e y = Except.error Err.oneOfTheFactorsIsNone ∧
      factor_product y e = Except.error Err.oneOfTheFactorsIsNone) ∧
    (∀ vars : List String, factor_marginalization e vars = Except.error Err.factorIsNone) ∧
    (∀ (v : String) (i : Int), factor_reduction e v i = Except.error Err.inputIsNone) ∧
    (∀ pre post : List Factor,
      joint_distribution (pre ++ e :: post) = Except.error Err.factorIsNone) := by
  have hd : e.distribution = none := Option.isNone_iff_eq_none.mp he
  obtain ⟨ev, ed⟩ := e
  dsimp only at hd
  subst hd
  refine ⟨?_, ?_, ?_, ?_⟩
  · intro y
    obtain ⟨yv, yd⟩ := y
    cases yd <;> exact ⟨rfl, rfl⟩
  · intro vars
    rfl
  · intro v i
    rfl
  · intro pre post
    have hany : (pre ++ { «variables» := ev, distribution := none } :: post).any
        Factor.is_none = true :=
      List.any_eq_true.mpr
        ⟨{ «variables» := ev, distribution := none }, by simp, rfl⟩
    unfold joint_distribution
    rw [if_pos (by rw [hany])]

/-- C5 witness: the rejection at a concrete empty factor. -/
theorem C5_empty_factor_rejected_everywhere_witness :
    exE.is_none = true ∧
    factor_product exE exX = Except.error Err.oneOfTheFactorsIsNone ∧
    factor_marginalization exE ["a"] = Except.error Err.factorIsNone ∧
    factor_reduction exE "a" 0 = Except.error Err.inputIsNone ∧
    joint_distribution ([exX] ++ exE :: []) = Except.error Err.factorIsNone :=
  ⟨rfl, ((C5_empty_factor_rejected_everywhere exE rfl).1 exX).1,
    (C5_empty_factor_rejected_everywhere exE rfl).2.1 ["a"],
    (C5_empty_factor_rejected_everywhere exE rfl).2.2.1 "a" 0,
    (C5_empty_factor_rejected_everywhere exE rfl).2.2.2 [exX] []⟩

/-- C7: for every non-empty sequence of non-empty factors,
joint_distribution is the left monadic fold of factor_product over the
sequence starting from its head (so failures of intermediate products
propagate unchanged with no partial result), and on a single factor it
returns that factor. -/
theorem C7_joint_distribution_left_fold (f : Factor) (rest : List Factor)
    (h : ∀ g ∈ f :: rest, g.is_none = false) :
    joint_distribution (f :: rest) = rest.foldlM factor_product f ∧
    joint_distribution [f] = Except.ok f := by
  have hany : (f :: rest).any Factor.is_none = false :=
    List.any_eq_false.mpr (fun g hg => by rw [h g hg]; simp)
  have hany1 : ([f] : List Factor).any Factor.is_none = false := by
    have hf := h f (List.mem_cons_self f rest)
    simp [List.any_cons, hf]
  constructor
  · unfold joint_distribution
    rw [if_neg (by rw [hany]; simp)]
  · unfold joint_distribution
    rw [if_neg (by rw [hany1]; simp)]
    rfl

/-- C7 witness: the fold shape at a concrete two-element sequence. -/
theorem C7_joint_distribution_left_fold_witness :
    exX.is_none = false ∧
    (joint_distribution [exX, exY] = List.foldlM factor_product exX [exY] ∧
      joint_distribution [exX] = Except.ok exX) :=
  ⟨rfl, C7_joint_distribution_left_fold exX [exY] (by decide)⟩

/-- C8 counterexample: on the empty sequence, joint_distribution fails with
the subscript IndexError of ar[0], which is not one of the explicitly
raised InvalidArgument exceptions, refuting the claim that it fails with
InvalidArgument (reason: empty sequence). -/
theorem C8_counterexample_empty_sequence_error_kind :
    joint_distribution ([] : List Factor) = Except.error Err.indexError ∧
    Err.indexError.isInvalidArgument = false := by
  constructor
  · unfold joint_distribution
    rw [if_neg (by simp)]
  · rfl

/-- C8 (amended): joint_distribution applied to a sequence of zero factors
does fail and returns no result, but through the uncaught IndexError of
the ar[0] subscript, not through an InvalidArgument validation. -/
theorem C8_empty_sequence_fails :
    joint_distribution ([] : List Factor) = Except.error Err.indexError := by
  unfold joint_distribution
  rw [if_neg (by simp)]

end BeliefProp
